import Mathlib

/-!
Verification of the catalog query client contract of the vz-tutorials
repository.  The notebook `preparing-data-for-analysis.ipynb` builds an HTTP
basic-auth header and issues three catalog searches; the pagination,
deduplication, validation and failure behaviour of the search operation is
specified in the repository's design document and is modelled here faithfully
from that document (the client library implementing it is not part of the
repository's sources).
-/

namespace VZ

/-- One catalog item: a single scene, identified by a unique id, carrying its
acquisition timestamp. -/
structure Item where
  itemId : Nat
  acqTime : Int
deriving DecidableEq

/-- GeoJSON-style geometry predicate: a point or a polygon ring.  Coordinates
are in thousandths of a degree, so the notebook's `-120.211` is `-120211`. -/
inductive Geometry where
  | point (lon lat : Int)
  | polygon (ring : List (Int × Int))
deriving DecidableEq

/-- Modelled from the spec: a geometry is malformed when a longitude lies
outside [-180,180] degrees or a polygon ring is not closed. -/
def validGeometry : Geometry → Bool
  | .point lon _ => decide (-180000 ≤ lon) && decide (lon ≤ 180000)
  | .polygon ring =>
      !ring.isEmpty && decide (ring.head? = ring.getLast?) &&
      ring.all fun c => decide (-180000 ≤ c.1) && decide (c.1 ≤ 180000)

/-- The immutable input to a search: collection keys, a geometry predicate, a
closed ISO-8601 time interval, and an optional result cap. -/
structure SearchQuery where
  collections : List String
  intersects : Geometry
  datetimeStart : String
  datetimeEnd : String
  maxItems : Option Nat
deriving DecidableEq

/-- The error taxonomy of the catalog query client. -/
inductive SearchError where
  | InvalidCollection
  | InvalidGeometry
  | InvalidTimeRange
  | CatalogUnreachable
  | QueryRejected
  | PaginationFailure
deriving DecidableEq

/-- The sequence a search yields: the items delivered, and how it terminated
(`none` = exhausted normally, `some e` = terminated with a reported error
after the listed items were already yielded). -/
structure SearchResult where
  items : List Item
  terminal : Option SearchError
deriving DecidableEq

/-- Either an immediate failure (before anything was yielded) or a result. -/
inductive SearchReply where
  | error (e : SearchError)
  | ok (r : SearchResult)
deriving DecidableEq

/-- Full observable outcome of one search call: the reply, the number of
network page-fetch attempts performed, and the Authorization header attached
to each attempt. -/
structure SearchOutcome where
  result : SearchReply
  fetchCount : Nat
  requests : List (List Nat)
deriving DecidableEq

/-- Stubbed behaviour of one server page: always answers with items and a
continuation flag, answers 5xx on its first `failures` attempts and then
succeeds, answers 5xx on every attempt, or answers 4xx on every attempt. -/
inductive PageBehavior where
  | ok (items : List Item) (hasNext : Bool)
  | flaky (failures : Nat) (items : List Item) (hasNext : Bool)
  | down
  | rejected
deriving DecidableEq

/-- A catalog endpoint: the collection keys it recognises, the auth context
attached to every request, and the stubbed page sequence it serves. -/
structure Catalog where
  validCollections : List String
  authHeader : List Nat
  pages : List PageBehavior
deriving DecidableEq

/-- Outcome of fetching one page (after any retries). -/
inductive FetchOutcome where
  | success (items : List Item) (hasNext : Bool)
  | transient
  | reject
deriving DecidableEq

/-- Modelled from the spec: transient failures are retried with capped
backoff, e.g. 3 attempts. -/
def retryLimit : Nat := 3

/-- Modelled from the spec: a page fetch beyond the first is retried up to
`retryLimit` attempts on a 5xx answer; a 4xx answer is never retried.
Returns the outcome together with the number of attempts spent. -/
def fetchWithRetry : PageBehavior → FetchOutcome × Nat
  | .ok its hn => (.success its hn, 1)
  | .flaky f its hn =>
      if f + 1 ≤ retryLimit then (.success its hn, f + 1)
      else (.transient, retryLimit)
  | .down => (.transient, retryLimit)
  | .rejected => (.reject, 1)

/-- Modelled from the spec: a first-page failure is surfaced immediately,
without retrying, since no partial result exists yet to salvage. -/
def fetchFirst : PageBehavior → FetchOutcome × Nat
  | .ok its hn => (.success its hn, 1)
  | .flaky f its hn => if f = 0 then (.success its hn, 1) else (.transient, 1)
  | .down => (.transient, 1)
  | .rejected => (.reject, 1)

/-- Decrement an optional cap. -/
def capDec : Option Nat → Option Nat
  | none => none
  | some n => some (n - 1)

/-- Modelled from the spec: absorb one page's items into the running result,
skipping ids already seen (deduplication by item id) and stopping once the
cap is exhausted.  Returns the newly yielded items, the updated seen-id set
and the remaining cap. -/
def takeNewItems (seen : List Nat) (cap : Option Nat) :
    List Item → List Item × List Nat × Option Nat
  | [] => ([], seen, cap)
  | i :: rest =>
      if cap = some 0 then ([], seen, cap)
      else if seen.contains i.itemId then takeNewItems seen cap rest
      else
        let out := takeNewItems (i.itemId :: seen) (capDec cap) rest
        (i :: out.1, out.2.1, out.2.2)

/-- What one run of the pagination loop produces. -/
structure PageRunOut where
  items : List Item
  terminal : Option SearchError
  fetches : Nat
  requests : List (List Nat)
deriving DecidableEq

/-- Modelled from the spec: the pagination loop over the pages after the
first.  It stops before fetching when the cap is exhausted, follows
continuation flags, deduplicates by item id, and on a failed later page
terminates with a reported error instead of silently truncating. -/
def paginate (auth : List Nat) (seen : List Nat) (cap : Option Nat) :
    List PageBehavior → PageRunOut
  | [] => ⟨[], none, 0, []⟩
  | p :: rest =>
      if cap = some 0 then ⟨[], none, 0, []⟩
      else
        match fetchWithRetry p with
        | (.success its hn, a) =>
            let t := takeNewItems seen cap its
            if hn then
              let out := paginate auth t.2.1 t.2.2 rest
              ⟨t.1 ++ out.items, out.terminal, a + out.fetches,
                List.replicate a auth ++ out.requests⟩
            else ⟨t.1, none, a, List.replicate a auth⟩
        | (.transient, a) =>
            ⟨[], some .PaginationFailure, a, List.replicate a auth⟩
        | (.reject, a) =>
            ⟨[], some .QueryRejected, a, List.replicate a auth⟩

/-- Lexicographic order on byte sequences. -/
def bytesLe : List Nat → List Nat → Bool
  | [], _ => true
  | _ :: _, [] => false
  | a :: as, b :: bs => if a < b then true else if a = b then bytesLe as bs else false

/-- ISO-8601 timestamps in a fixed format compare chronologically exactly as
their character sequences compare lexicographically. -/
def isoLe (s t : String) : Bool :=
  bytesLe (s.data.map Char.toNat) (t.data.map Char.toNat)

/-- Modelled from the spec: caller-input validation, detected before any
network call — unknown collection keys, malformed geometry, and a time
interval whose start is after its end. -/
def validateQuery (cat : Catalog) (q : SearchQuery) : Option SearchError :=
  if !(q.collections.all fun c => cat.validCollections.contains c) then
    some .InvalidCollection
  else if !(validGeometry q.intersects) then some .InvalidGeometry
  else if !(isoLe q.datetimeStart q.datetimeEnd) then some .InvalidTimeRange
  else none

/-- Modelled from the spec: `search(query)` — validate the inputs, fetch the
first page (failures there surface immediately as `CatalogUnreachable` or
`QueryRejected`), then follow continuation flags through `paginate`. -/
def searchRun (cat : Catalog) (q : SearchQuery) : SearchOutcome :=
  match validateQuery cat q with
  | some e => ⟨.error e, 0, []⟩
  | none =>
      if q.maxItems = some 0 then ⟨.ok ⟨[], none⟩, 0, []⟩
      else
        match cat.pages with
        | [] => ⟨.ok ⟨[], none⟩, 1, [cat.authHeader]⟩
        | p :: rest =>
            match fetchFirst p with
            | (.success its hn, a) =>
                let t := takeNewItems [] q.maxItems its
                if hn then
                  let out := paginate cat.authHeader t.2.1 t.2.2 rest
                  ⟨.ok ⟨t.1 ++ out.items, out.terminal⟩, a + out.fetches,
                    List.replicate a cat.authHeader ++ out.requests⟩
                else ⟨.ok ⟨t.1, none⟩, a, List.replicate a cat.authHeader⟩
            | (.transient, a) =>
                ⟨.error .CatalogUnreachable, a, List.replicate a cat.authHeader⟩
            | (.reject, a) =>
                ⟨.error .QueryRejected, a, List.replicate a cat.authHeader⟩

/-- The item sequence the server delivers, in server order: pages are
concatenated while each page carries a continuation flag. -/
def serverStream : List PageBehavior → List Item
  | [] => []
  | .ok its true :: rest => its ++ serverStream rest
  | .ok its false :: _ => its
  | _ :: _ => []

/-- Deduplication by item id, keeping first occurrences, relative to a set of
already-seen ids.  Returns the kept items and the final seen-id set. -/
def dedupAux (seen : List Nat) : List Item → List Item × List Nat
  | [] => ([], seen)
  | i :: rest =>
      if seen.contains i.itemId then dedupAux seen rest
      else
        let out := dedupAux (i.itemId :: seen) rest
        (i :: out.1, out.2)

/-- Every stubbed page answers successfully on the first attempt. -/
def allOk (l : List PageBehavior) : Bool :=
  l.all fun p => match p with | .ok _ _ => true | _ => false

/-- The head page (if any) answers successfully on the first attempt. -/
def headOk : List PageBehavior → Bool
  | .ok _ _ :: _ => true
  | _ => false

/-- Every stubbed page answers successfully and carries a continuation flag. -/
def allOkNext (l : List PageBehavior) : Bool :=
  l.all fun p => match p with | .ok _ true => true | _ => false

/-- All items a stubbed catalog page could ever serve. -/
def pageItems : PageBehavior → List Item
  | .ok its _ => its
  | .flaky _ its _ => its
  | _ => []

/-- All items a stubbed catalog could ever serve. -/
def catalogItems (cat : Catalog) : List Item :=
  cat.pages.foldr (fun p acc => pageItems p ++ acc) []

/-- The itemId components of a list of items. -/
def itemIds (l : List Item) : List Nat := l.map Item.itemId

/-- Truncate a list to an optional cap. -/
def takeCap (cap : Option Nat) (l : List Item) : List Item :=
  match cap with
  | none => l
  | some n => l.take n

/-- The base64 alphabet: the character (as an ASCII code) at index `i`. -/
def b64char (i : Nat) : Nat :=
  if i < 26 then 65 + i
  else if i < 52 then 97 + (i - 26)
  else if i < 62 then 48 + (i - 52)
  else if i = 62 then 43
  else 47

/-- Index of an ASCII code in the base64 alphabet. -/
def b64charInv (c : Nat) : Nat :=
  if 65 ≤ c ∧ c ≤ 90 then c - 65
  else if 97 ≤ c ∧ c ≤ 122 then c - 97 + 26
  else if 48 ≤ c ∧ c ≤ 57 then c - 48 + 52
  else if c = 43 then 62
  else 63

/-- RFC 4648 base64 of a byte sequence, as the ASCII codes of the encoded
text, with `=` (ASCII 61) padding; this is what `base64.b64encode` computes
in the notebook. -/
def b64encode : List Nat → List Nat
  | [] => []
  | [a] => [b64char (a / 4), b64char (a % 4 * 16), 61, 61]
  | [a, b] => [b64char (a / 4), b64char (a % 4 * 16 + b / 16),
               b64char (b % 16 * 4), 61]
  | a :: b :: c :: rest =>
      b64char (a / 4) :: b64char (a % 4 * 16 + b / 16) ::
      b64char (b % 16 * 4 + c / 64) :: b64char (c % 64) :: b64encode rest

/-- RFC 4648 base64 decoding of the ASCII codes of an encoded text. -/
def b64decode : List Nat → List Nat
  | w :: x :: y :: z :: rest =>
      if y = 61 then [b64charInv w * 4 + b64charInv x / 16]
      else if z = 61 then
        [b64charInv w * 4 + b64charInv x / 16,
         b64charInv x % 16 * 16 + b64charInv y / 4]
      else
        (b64charInv w * 4 + b64charInv x / 16) ::
        (b64charInv x % 16 * 16 + b64charInv y / 4) ::
        (b64charInv y % 4 * 64 + b64charInv z) ::
        b64decode rest
  | _ => []

/-- The notebook line `userpass = f"{creds['username']}:{creds['password']}"`,
at the byte level (58 is the ASCII code of `:`). -/
def userpass (username password : List Nat) : List Nat :=
  username ++ 58 :: password

/-- The notebook line `b64 = base64.b64encode(userpass.encode()).decode()`. -/
def b64 (username password : List Nat) : List Nat :=
  b64encode (userpass username password)

/-- The bytes of the string `"Basic "`. -/
def basicBytes : List Nat := [66, 97, 115, 105, 99, 32]

/-- The notebook line `headers = {'Authorization': 'Basic ' + b64}`: the value
of the Authorization header, at the byte level. -/
def headersAuthorization (username password : List Nat) : List Nat :=
  basicBytes ++ b64 username password

/-- Split a byte sequence at its first 58 (colon) byte. -/
def splitOnColon : List Nat → List Nat × List Nat
  | [] => ([], [])
  | c :: rest =>
      if c = 58 then ([], rest)
      else
        let out := splitOnColon rest
        (c :: out.1, out.2)

/-- The world a search call runs in: the catalog's state, plus any local
persistent state a client might keep. -/
structure World where
  catalog : Catalog
  localStore : List Nat
deriving DecidableEq

/-- A network read of one stubbed page in a given world: it may in principle
return an updated world, and per the spec it is a pure read. -/
def fetchPageSt (w : World) (first : Bool) (p : PageBehavior) :
    (FetchOutcome × Nat) × World :=
  ((if first then fetchFirst p else fetchWithRetry p), w)

/-- The pagination loop, threading the world through every page fetch. -/
def paginateSt (auth : List Nat) (seen : List Nat) (cap : Option Nat) :
    List PageBehavior → World → PageRunOut × World
  | [], w => (⟨[], none, 0, []⟩, w)
  | p :: rest, w =>
      if cap = some 0 then (⟨[], none, 0, []⟩, w)
      else
        match fetchPageSt w false p with
        | ((.success its hn, a), w1) =>
            let t := takeNewItems seen cap its
            if hn then
              let out := paginateSt auth t.2.1 t.2.2 rest w1
              (⟨t.1 ++ out.1.items, out.1.terminal, a + out.1.fetches,
                List.replicate a auth ++ out.1.requests⟩, out.2)
            else (⟨t.1, none, a, List.replicate a auth⟩, w1)
        | ((.transient, a), w1) =>
            (⟨[], some .PaginationFailure, a, List.replicate a auth⟩, w1)
        | ((.reject, a), w1) =>
            (⟨[], some .QueryRejected, a, List.replicate a auth⟩, w1)

/-- `search`, threading the world through every network interaction. -/
def searchRunSt (w : World) (q : SearchQuery) : SearchOutcome × World :=
  match validateQuery w.catalog q with
  | some e => (⟨.error e, 0, []⟩, w)
  | none =>
      if q.maxItems = some 0 then (⟨.ok ⟨[], none⟩, 0, []⟩, w)
      else
        match w.catalog.pages with
        | [] => (⟨.ok ⟨[], none⟩, 1, [w.catalog.authHeader]⟩, w)
        | p :: rest =>
            match fetchPageSt w true p with
            | ((.success its hn, a), w1) =>
                let t := takeNewItems [] q.maxItems its
                if hn then
                  let out := paginateSt w.catalog.authHeader t.2.1 t.2.2 rest w1
                  (⟨.ok ⟨t.1 ++ out.1.items, out.1.terminal⟩, a + out.1.fetches,
                    List.replicate a w.catalog.authHeader ++ out.1.requests⟩,
                   out.2)
                else
                  (⟨.ok ⟨t.1, none⟩, a,
                    List.replicate a w.catalog.authHeader⟩, w1)
            | ((.transient, a), w1) =>
                (⟨.error .CatalogUnreachable, a,
                  List.replicate a w.catalog.authHeader⟩, w1)
            | ((.reject, a), w1) =>
                (⟨.error .QueryRejected, a,
                  List.replicate a w.catalog.authHeader⟩, w1)

/-- The notebook's AOI:
`geom = {'type': 'Point', 'coordinates': [-120.211,36.535]}`, with the
coordinates scaled to thousandths of a degree. -/
def geom : Geometry := .point (-120211) 36535

/-- The search issued in the notebook's Level 1A section. -/
def l1aSearchQuery : SearchQuery :=
  { collections := ["pydms_sharpened_landsat"]
    intersects := geom
    datetimeStart := "2021-08-17"
    datetimeEnd := "2021-10-30"
    maxItems := some 10 }

/-- The search issued in the notebook's Level 1B section. -/
def l1bSearchQuery : SearchQuery :=
  { collections := ["pydms_sharpened_landsat"]
    intersects := geom
    datetimeStart := "2021-08-17"
    datetimeEnd := "2021-10-30"
    maxItems := some 10 }

/-- The search issued in the notebook's Level 2 section. -/
def l2SearchQuery : SearchQuery :=
  { collections := ["pydms_sharpened_landsat"]
    intersects := geom
    datetimeStart := "2021-08-17"
    datetimeEnd := "2021-10-30"
    maxItems := some 10 }

/-- The bytes of a sample username. -/
def userBytes : List Nat := [117, 115, 101, 114]

/-- The bytes of a sample password. -/
def passBytes : List Nat := [112, 97, 115, 115]

/-- First stubbed page of five items, acquisition times descending. -/
def stubPage1 : List Item := [⟨1, 99⟩, ⟨2, 98⟩, ⟨3, 97⟩, ⟨4, 96⟩, ⟨5, 95⟩]

/-- Second stubbed page of five items, acquisition times descending. -/
def stubPage2 : List Item := [⟨6, 94⟩, ⟨7, 93⟩, ⟨8, 92⟩, ⟨9, 91⟩, ⟨10, 90⟩]

/-- The collection keys the stubbed catalogs recognise. -/
def stubCollections : List String := ["pydms_sharpened_landsat"]

/-- The auth header the stubbed catalogs attach to every request. -/
def stubAuth : List Nat := headersAuthorization userBytes passBytes

/-- Stubbed catalog serving two pages of five items each, both with a
continuation flag, followed by a terminal empty page. -/
def stubCat2 : Catalog :=
  ⟨stubCollections, stubAuth,
   [.ok stubPage1 true, .ok stubPage2 true, .ok [] false]⟩

/-- Stubbed catalog whose pages overlap: item id 2 appears on both pages. -/
def dupCat : Catalog :=
  ⟨stubCollections, stubAuth,
   [.ok [⟨1, 99⟩, ⟨2, 98⟩] true, .ok [⟨2, 98⟩, ⟨3, 97⟩] false]⟩

/-- Stubbed catalog whose second page answers 500 on every retry attempt. -/
def failCat : Catalog :=
  ⟨stubCollections, stubAuth, [.ok stubPage1 true, .down]⟩

/-- The notebook query with no result cap. -/
def noCapQuery : SearchQuery := { l1aSearchQuery with maxItems := none }

/-- The notebook query with a cap of 3. -/
def capQuery3 : SearchQuery := { l1aSearchQuery with maxItems := some 3 }

/-- The notebook query with its time interval reversed (start after end). -/
def badTimeQuery : SearchQuery :=
  { l1aSearchQuery with datetimeStart := "2021-10-30",
                        datetimeEnd := "2021-08-17" }

/-- A world holding the two-page stubbed catalog and some local state. -/
def stubWorld : World := ⟨stubCat2, [7]⟩

/-- All items of a stubbed page list. -/
def pagesItems (l : List PageBehavior) : List Item :=
  l.foldr (fun p acc => pageItems p ++ acc) []

/-! ## Helper lemmas -/

theorem b64charInv_b64char : ∀ i < 64, b64charInv (b64char i) = i := by decide

theorem b64char_ne_pad : ∀ i < 64, b64char i ≠ 61 := by decide

theorem b64decode_b64encode :
    ∀ l : List Nat, (∀ x ∈ l, x < 256) → b64decode (b64encode l) = l
  | [], _ => rfl
  | [a], h => by
      have ha : a < 256 := h a (by simp)
      have h1 : a / 4 < 64 := by omega
      have h2 : a % 4 * 16 < 64 := by omega
      simp only [b64encode, b64decode, if_pos rfl,
        b64charInv_b64char _ h1, b64charInv_b64char _ h2,
        if_true, List.cons.injEq, and_true]
      omega
  | [a, b], h => by
      have ha : a < 256 := h a (by simp)
      have hb : b < 256 := h b (by simp)
      have h1 : a / 4 < 64 := by omega
      have h2 : a % 4 * 16 + b / 16 < 64 := by omega
      have h3 : b % 16 * 4 < 64 := by omega
      simp only [b64encode, b64decode, if_neg (b64char_ne_pad _ h3), if_pos rfl,
        b64charInv_b64char _ h1, b64charInv_b64char _ h2,
        b64charInv_b64char _ h3, if_true, List.cons.injEq, and_true]
      exact ⟨by omega, by omega⟩
  | a :: b :: c :: rest, h => by
      have ha : a < 256 := h a (by simp)
      have hb : b < 256 := h b (by simp)
      have hc : c < 256 := h c (by simp)
      have h1 : a / 4 < 64 := by omega
      have h2 : a % 4 * 16 + b / 16 < 64 := by omega
      have h3 : b % 16 * 4 + c / 64 < 64 := by omega
      have h4 : c % 64 < 64 := by omega
      have hr : b64decode (b64encode rest) = rest :=
        b64decode_b64encode rest fun x hx => h x (by simp [hx])
      simp only [b64encode, b64decode, if_neg (b64char_ne_pad _ h3),
        if_neg (b64char_ne_pad _ h4), b64charInv_b64char _ h1,
        b64charInv_b64char _ h2, b64charInv_b64char _ h3,
        b64charInv_b64char _ h4, List.cons.injEq]
      exact ⟨by omega, by omega, by omega, hr⟩

theorem dedupAux_append (l1 l2 : List Item) : ∀ seen,
    dedupAux seen (l1 ++ l2) =
      ((dedupAux seen l1).1 ++ (dedupAux (dedupAux seen l1).2 l2).1,
       (dedupAux (dedupAux seen l1).2 l2).2) := by
  induction l1 with
  | nil => intro seen; simp [dedupAux]
  | cons i rest ih =>
      intro seen
      by_cases h : i.itemId ∈ seen
      · simp [dedupAux, h, ih]
      · simp [dedupAux, h, ih]

theorem dedupAux_nil_seen : ∀ (l : List Item) (seen : List Nat),
    (dedupAux seen l).1 = [] → (dedupAux seen l).2 = seen := by
  intro l
  induction l with
  | nil => intro seen _; rfl
  | cons i rest ih =>
      intro seen h
      by_cases hc : i.itemId ∈ seen
      · have hd : dedupAux seen (i :: rest) = dedupAux seen rest := by
          simp [dedupAux, hc]
        rw [hd] at h ⊢
        exact ih seen h
      · simp [dedupAux, hc] at h

theorem takeNewItems_none : ∀ (l : List Item) (seen : List Nat),
    takeNewItems seen none l = ((dedupAux seen l).1, (dedupAux seen l).2, none) := by
  intro l
  induction l with
  | nil => intro seen; rfl
  | cons i rest ih =>
      intro seen
      by_cases hc : i.itemId ∈ seen
      · simp [takeNewItems, dedupAux, hc, ih]
      · simp [takeNewItems, dedupAux, hc, capDec, ih]

theorem takeNewItems_take : ∀ (l : List Item) (seen : List Nat) (n : Nat),
    (takeNewItems seen (some n) l).1 = (dedupAux seen l).1.take n := by
  intro l
  induction l with
  | nil => intro seen n; simp [takeNewItems, dedupAux]
  | cons i rest ih =>
      intro seen n
      by_cases hn : n = 0
      · subst hn; simp [takeNewItems]
      · by_cases hc : i.itemId ∈ seen
        · simp [takeNewItems, dedupAux, hc, hn, ih]
        · have hm : ∃ m, n = m + 1 := ⟨n - 1, by omega⟩
          obtain ⟨m, rfl⟩ := hm
          simp [takeNewItems, dedupAux, hc, hn, capDec, ih]

theorem takeNewItems_cap : ∀ (l : List Item) (seen : List Nat) (n : Nat),
    (takeNewItems seen (some n) l).2.2 =
      some (n - (dedupAux seen l).1.length) := by
  intro l
  induction l with
  | nil => intro seen n; simp [takeNewItems, dedupAux]
  | cons i rest ih =>
      intro seen n
      by_cases hn : n = 0
      · subst hn
        by_cases hc : i.itemId ∈ seen
        · simp [takeNewItems, dedupAux, hc, ih]
        · simp [takeNewItems, dedupAux, hc]
      · by_cases hc : i.itemId ∈ seen
        · simp [takeNewItems, dedupAux, hc, hn, ih]
        · have hm : ∃ m, n = m + 1 := ⟨n - 1, by omega⟩
          obtain ⟨m, rfl⟩ := hm
          simp [takeNewItems, dedupAux, hc, capDec, ih, Nat.succ_sub_succ]

theorem takeNewItems_seen : ∀ (l : List Item) (seen : List Nat) (n : Nat),
    (dedupAux seen l).1.length ≤ n →
    (takeNewItems seen (some n) l).2.1 = (dedupAux seen l).2 := by
  intro l
  induction l with
  | nil => intro seen n _; rfl
  | cons i rest ih =>
      intro seen n h
      by_cases hc : i.itemId ∈ seen
      · have hd : dedupAux seen (i :: rest) = dedupAux seen rest := by
          simp [dedupAux, hc]
        rw [hd] at h ⊢
        by_cases hn : n = 0
        · subst hn
          have h2 : (dedupAux seen rest).1 = [] := by
            cases hdd : (dedupAux seen rest).1 with
            | nil => rfl
            | cons a as => rw [hdd] at h; simp at h
          have hs := dedupAux_nil_seen rest seen h2
          simp [takeNewItems, hs]
        · have ht : takeNewItems seen (some n) (i :: rest) =
              takeNewItems seen (some n) rest := by
            simp [takeNewItems, hc, hn]
          rw [ht]
          exact ih seen n h
      · have hd1 : (dedupAux seen (i :: rest)).1 =
            i :: (dedupAux (i.itemId :: seen) rest).1 := by
          simp [dedupAux, hc]
        have hd2 : (dedupAux seen (i :: rest)).2 =
            (dedupAux (i.itemId :: seen) rest).2 := by
          simp [dedupAux, hc]
        rw [hd1, List.length_cons] at h
        have hn : ¬n = 0 := by omega
        have ht : (takeNewItems seen (some n) (i :: rest)).2.1 =
            (takeNewItems (i.itemId :: seen) (some (n - 1)) rest).2.1 := by
          simp [takeNewItems, hc, hn, capDec]
        rw [ht, hd2]
        exact ih (i.itemId :: seen) (n - 1) (by omega)

theorem takeNewItems_sublist : ∀ (l : List Item) (seen : List Nat) (cap : Option Nat),
    (takeNewItems seen cap l).1.Sublist l := by
  intro l
  induction l with
  | nil => intro seen cap; simp [takeNewItems]
  | cons i rest ih =>
      intro seen cap
      by_cases h0 : cap = some 0
      · simp [takeNewItems, h0]
      · by_cases hc : i.itemId ∈ seen
        · refine List.Sublist.trans ?_ ((ih seen cap).cons i)
          simp [takeNewItems, h0, hc]
        · have : (takeNewItems seen cap (i :: rest)).1 =
              i :: (takeNewItems (i.itemId :: seen) (capDec cap) rest).1 := by
            simp [takeNewItems, h0, hc]
          rw [this]
          exact (ih (i.itemId :: seen) (capDec cap)).cons₂ i

theorem takeNewItems_nodup :
    ∀ (l : List Item) (seen : List Nat) (cap : Option Nat),
    ((takeNewItems seen cap l).1.map Item.itemId).Nodup
    ∧ (∀ x ∈ (takeNewItems seen cap l).1.map Item.itemId, x ∉ seen)
    ∧ (∀ x ∈ seen, x ∈ (takeNewItems seen cap l).2.1)
    ∧ (∀ x ∈ (takeNewItems seen cap l).1.map Item.itemId,
         x ∈ (takeNewItems seen cap l).2.1) := by
  intro l
  induction l with
  | nil => intro seen cap; simp [takeNewItems]
  | cons i rest ih =>
      intro seen cap
      by_cases h0 : cap = some 0
      · simp [takeNewItems, h0]
      · by_cases hc : i.itemId ∈ seen
        · have ht : takeNewItems seen cap (i :: rest) =
              takeNewItems seen cap rest := by simp [takeNewItems, h0, hc]
          rw [ht]
          exact ih seen cap
        · have ht1 : (takeNewItems seen cap (i :: rest)).1 =
              i :: (takeNewItems (i.itemId :: seen) (capDec cap) rest).1 := by
            simp [takeNewItems, h0, hc]
          have ht2 : (takeNewItems seen cap (i :: rest)).2.1 =
              (takeNewItems (i.itemId :: seen) (capDec cap) rest).2.1 := by
            simp [takeNewItems, h0, hc]
          obtain ⟨ra, rb, rc, rd⟩ := ih (i.itemId :: seen) (capDec cap)
          rw [ht1, ht2]
          refine ⟨?_, ?_, ?_, ?_⟩
          · simp only [List.map_cons, List.nodup_cons]
            exact ⟨fun hx => (rb _ hx) (by simp), ra⟩
          · intro x hx
            simp only [List.map_cons, List.mem_cons] at hx
            rcases hx with rfl | hx
            · exact hc
            · intro hs
              exact (rb _ hx) (by simp [hs])
          · intro x hx
            exact rc x (by simp [hx])
          · intro x hx
            simp only [List.map_cons, List.mem_cons] at hx
            rcases hx with rfl | hx
            · exact rc _ (by simp)
            · exact rd _ hx

theorem paginate_zero (auth seen : List Nat) :
    ∀ pages, paginate auth seen (some 0) pages = ⟨[], none, 0, []⟩ := by
  intro pages
  cases pages <;> simp [paginate]

theorem allOk_cons {p : PageBehavior} {rest : List PageBehavior}
    (h : allOk (p :: rest) = true) : allOk rest = true := by
  simp only [allOk, List.all_cons, Bool.and_eq_true] at h ⊢
  exact h.2

theorem paginate_cap (auth : List Nat) :
    ∀ (pages : List PageBehavior) (seen : List Nat) (n : Nat),
    allOk pages = true →
    (paginate auth seen (some n) pages).items =
      (dedupAux seen (serverStream pages)).1.take n
    ∧ (paginate auth seen (some n) pages).terminal = none := by
  intro pages
  induction pages with
  | nil => intro seen n _; simp [paginate, serverStream, dedupAux]
  | cons p rest ih =>
      intro seen n hall
      cases p with
      | ok its hn =>
          have hrest : allOk rest = true := allOk_cons hall
          by_cases h0 : n = 0
          · subst h0; simp [paginate]
          · have htake := takeNewItems_take its seen n
            have hcap := takeNewItems_cap its seen n
            cases hn with
            | true =>
                by_cases hle : (dedupAux seen its).1.length ≤ n
                · have hseen := takeNewItems_seen its seen n hle
                  obtain ⟨ih1, ih2⟩ :=
                    ih (dedupAux seen its).2
                      (n - (dedupAux seen its).1.length) hrest
                  constructor
                  · simp [paginate, h0, fetchWithRetry, htake, hcap, hseen,
                      ih1, serverStream, dedupAux_append,
                      List.take_append_eq_append_take]
                  · simp [paginate, h0, fetchWithRetry, hcap, hseen, ih2]
                · have hz : n - (dedupAux seen its).1.length = 0 := by omega
                  constructor
                  · simp [paginate, h0, fetchWithRetry, htake, hcap, hz,
                      paginate_zero, serverStream, dedupAux_append,
                      List.take_append_eq_append_take]
                  · simp [paginate, h0, fetchWithRetry, hcap, hz,
                      paginate_zero]
            | false =>
                constructor
                · simp [paginate, h0, fetchWithRetry, htake, serverStream]
                · simp [paginate, h0, fetchWithRetry]
      | flaky f its hn => simp [allOk] at hall
      | down => simp [allOk] at hall
      | rejected => simp [allOk] at hall

theorem paginate_nocap (auth : List Nat) :
    ∀ (pages : List PageBehavior) (seen : List Nat),
    allOk pages = true →
    (paginate auth seen none pages).items = (dedupAux seen (serverStream pages)).1
    ∧ (paginate auth seen none pages).terminal = none := by
  intro pages
  induction pages with
  | nil => intro seen _; simp [paginate, serverStream, dedupAux]
  | cons p rest ih =>
      intro seen hall
      cases p with
      | ok its hn =>
          have hrest : allOk rest = true := allOk_cons hall
          have hnone := takeNewItems_none its seen
          cases hn with
          | true =>
              obtain ⟨ih1, ih2⟩ := ih (dedupAux seen its).2 hrest
              constructor
              · simp [paginate, fetchWithRetry, hnone, ih1, serverStream,
                  dedupAux_append]
              · simp [paginate, fetchWithRetry, hnone, ih2]
          | false =>
              constructor
              · simp [paginate, fetchWithRetry, hnone, serverStream]
              · simp [paginate, fetchWithRetry]
      | flaky f its hn => simp [allOk] at hall
      | down => simp [allOk] at hall
      | rejected => simp [allOk] at hall

theorem paginate_fetches (auth : List Nat) :
    ∀ (pages : List PageBehavior) (seen : List Nat) (n k : Nat),
    allOk pages = true →
    n ≤ (dedupAux seen (serverStream (pages.take k))).1.length →
    (paginate auth seen (some n) pages).fetches ≤ k := by
  intro pages
  induction pages with
  | nil => intro seen n k _ _; simp [paginate]
  | cons p rest ih =>
      intro seen n k hall hlen
      cases p with
      | ok its hn =>
          have hrest := allOk_cons hall
          by_cases h0 : n = 0
          · subst h0; simp [paginate]
          · match k with
            | 0 =>
                exfalso
                simp [serverStream, dedupAux] at hlen
                omega
            | j + 1 =>
                cases hn with
                | false =>
                    have hf : (paginate auth seen (some n)
                        (.ok its false :: rest)).fetches = 1 := by
                      simp [paginate, h0, fetchWithRetry]
                    omega
                | true =>
                    have hcap := takeNewItems_cap its seen n
                    by_cases hle : n ≤ (dedupAux seen its).1.length
                    · have hz : n - (dedupAux seen its).1.length = 0 := by omega
                      have hf : (paginate auth seen (some n)
                          (.ok its true :: rest)).fetches = 1 + 0 := by
                        simp [paginate, h0, fetchWithRetry, hcap, hz,
                          paginate_zero]
                      omega
                    · have hseen := takeNewItems_seen its seen n (by omega)
                      simp only [List.take_succ_cons, serverStream,
                        dedupAux_append, List.length_append] at hlen
                      have hrec := ih (dedupAux seen its).2
                        (n - (dedupAux seen its).1.length) j hrest (by omega)
                      have hf : (paginate auth seen (some n)
                          (.ok its true :: rest)).fetches =
                          1 + (paginate auth (dedupAux seen its).2
                            (some (n - (dedupAux seen its).1.length))
                            rest).fetches := by
                        simp [paginate, h0, fetchWithRetry, hcap, hseen]
                      omega
      | flaky f its hn => simp [allOk] at hall
      | down => simp [allOk] at hall
      | rejected => simp [allOk] at hall

theorem paginate_nodup (auth : List Nat) :
    ∀ (pages : List PageBehavior) (seen : List Nat) (cap : Option Nat),
    ((paginate auth seen cap pages).items.map Item.itemId).Nodup
    ∧ (∀ x ∈ (paginate auth seen cap pages).items.map Item.itemId, x ∉ seen) := by
  intro pages
  induction pages with
  | nil => intro seen cap; simp [paginate]
  | cons p rest ih =>
      intro seen cap
      by_cases h0 : cap = some 0
      · simp [paginate, h0]
      · rcases hf : fetchWithRetry p with ⟨fo, a⟩
        cases fo with
        | success its hn =>
            obtain ⟨ta, tb, tc, td⟩ := takeNewItems_nodup its seen cap
            cases hn with
            | true =>
                obtain ⟨ra, rb⟩ := ih (takeNewItems seen cap its).2.1
                  (takeNewItems seen cap its).2.2
                have hitems : (paginate auth seen cap (p :: rest)).items =
                    (takeNewItems seen cap its).1 ++
                    (paginate auth (takeNewItems seen cap its).2.1
                      (takeNewItems seen cap its).2.2 rest).items := by
                  simp [paginate, h0, hf]
                rw [hitems]
                constructor
                · rw [List.map_append]
                  refine ta.append ra ?_
                  intro x hx1 hx2
                  exact (rb x hx2) (td x hx1)
                · intro x hx
                  rw [List.map_append, List.mem_append] at hx
                  rcases hx with hx | hx
                  · exact tb x hx
                  · intro hs
                    exact (rb x hx) (tc x hs)
            | false =>
                have hitems : (paginate auth seen cap (p :: rest)).items =
                    (takeNewItems seen cap its).1 := by
                  simp [paginate, h0, hf]
                rw [hitems]
                exact ⟨ta, tb⟩
        | transient => simp [paginate, h0, hf]
        | reject => simp [paginate, h0, hf]

theorem paginate_sublist (auth : List Nat) :
    ∀ (pages : List PageBehavior) (seen : List Nat) (cap : Option Nat),
    allOk pages = true →
    (paginate auth seen cap pages).items.Sublist (serverStream pages) := by
  intro pages
  induction pages with
  | nil => intro seen cap _; simp [paginate, serverStream]
  | cons p rest ih =>
      intro seen cap hall
      cases p with
      | ok its hn =>
          have hrest := allOk_cons hall
          by_cases h0 : cap = some 0
          · have hit : (paginate auth seen cap (.ok its hn :: rest)).items = [] := by
              simp [paginate, h0]
            rw [hit]
            exact List.nil_sublist _
          · cases hn with
            | true =>
                have hitems : (paginate auth seen cap (.ok its true :: rest)).items =
                    (takeNewItems seen cap its).1 ++
                    (paginate auth (takeNewItems seen cap its).2.1
                      (takeNewItems seen cap its).2.2 rest).items := by
                  simp [paginate, h0, fetchWithRetry]
                rw [hitems]
                have h1 := takeNewItems_sublist its seen cap
                have h2 := ih (takeNewItems seen cap its).2.1
                  (takeNewItems seen cap its).2.2 hrest
                simpa [serverStream] using h1.append h2
            | false =>
                have hitems : (paginate auth seen cap (.ok its false :: rest)).items =
                    (takeNewItems seen cap its).1 := by
                  simp [paginate, h0, fetchWithRetry]
                rw [hitems]
                simpa [serverStream] using takeNewItems_sublist its seen cap
      | flaky f its hn => simp [allOk] at hall
      | down => simp [allOk] at hall
      | rejected => simp [allOk] at hall

theorem paginate_requests (auth : List Nat) :
    ∀ (pages : List PageBehavior) (seen : List Nat) (cap : Option Nat),
    ∀ h ∈ (paginate auth seen cap pages).requests, h = auth := by
  intro pages
  induction pages with
  | nil => intro seen cap h hh; simp [paginate] at hh
  | cons p rest ih =>
      intro seen cap h hh
      by_cases h0 : cap = some 0
      · simp [paginate, h0] at hh
      · rcases hf : fetchWithRetry p with ⟨fo, a⟩
        cases fo with
        | success its hn =>
            cases hn with
            | true =>
                have hreq : (paginate auth seen cap (p :: rest)).requests =
                    List.replicate a auth ++
                    (paginate auth (takeNewItems seen cap its).2.1
                      (takeNewItems seen cap its).2.2 rest).requests := by
                  simp [paginate, h0, hf]
                rw [hreq] at hh
                rcases List.mem_append.mp hh with hh | hh
                · exact List.eq_of_mem_replicate hh
                · exact ih _ _ h hh
            | false =>
                exact List.eq_of_mem_replicate
                  (by simpa [paginate, h0, hf] using hh)
        | transient =>
            exact List.eq_of_mem_replicate
              (by simpa [paginate, h0, hf] using hh)
        | reject =>
            exact List.eq_of_mem_replicate
              (by simpa [paginate, h0, hf] using hh)

theorem fetch_success_items {p : PageBehavior} {its : List Item} {hn : Bool}
    {a : Nat} (h : fetchWithRetry p = (.success its hn, a)) :
    pageItems p = its := by
  cases p with
  | ok l b =>
      simp [fetchWithRetry] at h
      simp [pageItems, h.1.1]
  | flaky f l b =>
      by_cases hf3 : f + 1 ≤ retryLimit
      · simp [fetchWithRetry, hf3] at h
        simp [pageItems, h.1.1]
      · simp [fetchWithRetry, hf3] at h
  | down => simp [fetchWithRetry] at h
  | rejected => simp [fetchWithRetry] at h

theorem paginate_mem (auth : List Nat) :
    ∀ (pages : List PageBehavior) (seen : List Nat) (cap : Option Nat),
    ∀ it ∈ (paginate auth seen cap pages).items, it ∈ pagesItems pages := by
  intro pages
  induction pages with
  | nil => intro seen cap it hit; simp [paginate] at hit
  | cons p rest ih =>
      intro seen cap it hit
      by_cases h0 : cap = some 0
      · simp [paginate, h0] at hit
      · have hsplit : pagesItems (p :: rest) = pageItems p ++ pagesItems rest := rfl
        rcases hf : fetchWithRetry p with ⟨fo, a⟩
        cases fo with
        | success its hn =>
            have hpi : pageItems p = its := fetch_success_items hf
            cases hn with
            | true =>
                have hitems : (paginate auth seen cap (p :: rest)).items =
                    (takeNewItems seen cap its).1 ++
                    (paginate auth (takeNewItems seen cap its).2.1
                      (takeNewItems seen cap its).2.2 rest).items := by
                  simp [paginate, h0, hf]
                rw [hitems] at hit
                rw [hsplit, hpi]
                rcases List.mem_append.mp hit with hit | hit
                · exact List.mem_append_left _
                    ((takeNewItems_sublist its seen cap).subset hit)
                · exact List.mem_append_right _ (ih _ _ it hit)
            | false =>
                have hitems : (paginate auth seen cap (p :: rest)).items =
                    (takeNewItems seen cap its).1 := by
                  simp [paginate, h0, hf]
                rw [hitems] at hit
                rw [hsplit, hpi]
                exact List.mem_append_left _
                  ((takeNewItems_sublist its seen cap).subset hit)
        | transient => simp [paginate, h0, hf] at hit
        | reject => simp [paginate, h0, hf] at hit

theorem paginate_down (auth : List Nat) (rest : List PageBehavior) :
    ∀ (pre : List PageBehavior) (seen : List Nat),
    allOkNext pre = true →
    (paginate auth seen none (pre ++ .down :: rest)).items =
      (dedupAux seen (serverStream (pre ++ .down :: rest))).1
    ∧ (paginate auth seen none (pre ++ .down :: rest)).terminal =
        some .PaginationFailure := by
  intro pre
  induction pre with
  | nil =>
      intro seen _
      constructor
      · simp [paginate, fetchWithRetry, serverStream, dedupAux]
      · simp [paginate, fetchWithRetry]
  | cons p pre' ih =>
      intro seen hall
      cases p with
      | ok its hn =>
          cases hn with
          | true =>
              have hrest : allOkNext pre' = true := by
                simpa [allOkNext] using hall
              have hnone := takeNewItems_none its seen
              obtain ⟨ih1, ih2⟩ := ih (dedupAux seen its).2 hrest
              constructor
              · simp [paginate, fetchWithRetry, hnone, ih1, serverStream,
                  dedupAux_append]
              · simp [paginate, fetchWithRetry, hnone, ih2]
          | false => simp [allOkNext] at hall
      | flaky f its hn => simp [allOkNext] at hall
      | down => simp [allOkNext] at hall
      | rejected => simp [allOkNext] at hall

theorem searchRun_eq_paginate (cat : Catalog) (q : SearchQuery)
    (hv : validateQuery cat q = none) (hcap : ¬q.maxItems = some 0)
    (hhead : headOk cat.pages = true) :
    searchRun cat q =
      ⟨.ok ⟨(paginate cat.authHeader [] q.maxItems cat.pages).items,
            (paginate cat.authHeader [] q.maxItems cat.pages).terminal⟩,
       (paginate cat.authHeader [] q.maxItems cat.pages).fetches,
       (paginate cat.authHeader [] q.maxItems cat.pages).requests⟩ := by
  match hp : cat.pages with
  | [] => rw [hp] at hhead; simp [headOk] at hhead
  | p :: rest =>
      cases p with
      | ok its hn =>
          cases hn with
          | true =>
              simp [searchRun, hv, hcap, hp, fetchFirst, paginate,
                fetchWithRetry]
          | false =>
              simp [searchRun, hv, hcap, hp, fetchFirst, paginate,
                fetchWithRetry]
      | flaky f its hn => rw [hp] at hhead; simp [headOk] at hhead
      | down => rw [hp] at hhead; simp [headOk] at hhead
      | rejected => rw [hp] at hhead; simp [headOk] at hhead

theorem fetchFirst_success_items {p : PageBehavior} {its : List Item}
    {hn : Bool} {a : Nat} (h : fetchFirst p = (.success its hn, a)) :
    pageItems p = its := by
  cases p with
  | ok l b =>
      simp [fetchFirst] at h
      simp [pageItems, h.1.1]
  | flaky f l b =>
      by_cases hf0 : f = 0
      · simp [fetchFirst, hf0] at h
        simp [pageItems, h.1.1]
      · simp [fetchFirst, hf0] at h
  | down => simp [fetchFirst] at h
  | rejected => simp [fetchFirst] at h

theorem searchRun_nodup (cat : Catalog) (q : SearchQuery) (r : SearchResult)
    (hres : (searchRun cat q).result = .ok r) :
    (r.items.map Item.itemId).Nodup := by
  rcases hv : validateQuery cat q with _ | e
  case some => simp [searchRun, hv] at hres
  by_cases hcap : q.maxItems = some 0
  · simp [searchRun, hv, hcap] at hres
    rw [← hres]
    simp
  match hp : cat.pages with
  | [] =>
      simp [searchRun, hv, hcap, hp] at hres
      rw [← hres]
      simp
  | p :: rest =>
      rcases hf : fetchFirst p with ⟨fo, a⟩
      cases fo with
      | success its hn =>
          obtain ⟨ta, tb, tc, td⟩ := takeNewItems_nodup its [] q.maxItems
          cases hn with
          | true =>
              obtain ⟨ra, rb⟩ := paginate_nodup cat.authHeader rest
                (takeNewItems [] q.maxItems its).2.1
                (takeNewItems [] q.maxItems its).2.2
              simp [searchRun, hv, hcap, hp, hf] at hres
              rw [← hres]
              rw [List.map_append]
              refine ta.append ra ?_
              intro x hx1 hx2
              exact (rb x hx2) (td x hx1)
          | false =>
              simp [searchRun, hv, hcap, hp, hf] at hres
              rw [← hres]
              exact ta
      | transient => simp [searchRun, hv, hcap, hp, hf] at hres
      | reject => simp [searchRun, hv, hcap, hp, hf] at hres

theorem searchRun_requests (cat : Catalog) (q : SearchQuery) :
    ∀ h ∈ (searchRun cat q).requests, h = cat.authHeader := by
  intro h hh
  rcases hv : validateQuery cat q with _ | e
  case some => simp [searchRun, hv] at hh
  by_cases hcap : q.maxItems = some 0
  · simp [searchRun, hv, hcap] at hh
  match hp : cat.pages with
  | [] =>
      simp [searchRun, hv, hcap, hp] at hh
      exact hh
  | p :: rest =>
      rcases hf : fetchFirst p with ⟨fo, a⟩
      cases fo with
      | success its hn =>
          cases hn with
          | true =>
              have hreq : (searchRun cat q).requests =
                  List.replicate a cat.authHeader ++
                  (paginate cat.authHeader (takeNewItems [] q.maxItems its).2.1
                    (takeNewItems [] q.maxItems its).2.2 rest).requests := by
                simp [searchRun, hv, hcap, hp, hf]
              rw [hreq] at hh
              rcases List.mem_append.mp hh with hh | hh
              · exact List.eq_of_mem_replicate hh
              · exact paginate_requests cat.authHeader rest _ _ h hh
          | false =>
              exact List.eq_of_mem_replicate
                (by simpa [searchRun, hv, hcap, hp, hf] using hh)
      | transient =>
          exact List.eq_of_mem_replicate
            (by simpa [searchRun, hv, hcap, hp, hf] using hh)
      | reject =>
          exact List.eq_of_mem_replicate
            (by simpa [searchRun, hv, hcap, hp, hf] using hh)

theorem searchRun_mem (cat : Catalog) (q : SearchQuery) (r : SearchResult)
    (hres : (searchRun cat q).result = .ok r) :
    ∀ it ∈ r.items, it ∈ catalogItems cat := by
  intro it hit
  rcases hv : validateQuery cat q with _ | e
  case some => simp [searchRun, hv] at hres
  by_cases hcap : q.maxItems = some 0
  · simp [searchRun, hv, hcap] at hres
    rw [← hres] at hit
    simp at hit
  match hp : cat.pages with
  | [] =>
      simp [searchRun, hv, hcap, hp] at hres
      rw [← hres] at hit
      simp at hit
  | p :: rest =>
      have hsplit : catalogItems cat = pageItems p ++ pagesItems rest := by
        simp [catalogItems, pagesItems, hp]
      rcases hf : fetchFirst p with ⟨fo, a⟩
      cases fo with
      | success its hn =>
          have hpi : pageItems p = its := fetchFirst_success_items hf
          cases hn with
          | true =>
              simp [searchRun, hv, hcap, hp, hf] at hres
              rw [← hres] at hit
              rw [hsplit, hpi]
              rcases List.mem_append.mp hit with hit | hit
              · exact List.mem_append_left _
                  ((takeNewItems_sublist its [] q.maxItems).subset hit)
              · exact List.mem_append_right _
                  (paginate_mem cat.authHeader rest _ _ it hit)
          | false =>
              simp [searchRun, hv, hcap, hp, hf] at hres
              rw [← hres] at hit
              rw [hsplit, hpi]
              exact List.mem_append_left _
                ((takeNewItems_sublist its [] q.maxItems).subset hit)
      | transient => simp [searchRun, hv, hcap, hp, hf] at hres
      | reject => simp [searchRun, hv, hcap, hp, hf] at hres

theorem paginateSt_frame (auth : List Nat) :
    ∀ (pages : List PageBehavior) (seen : List Nat) (cap : Option Nat)
      (w : World), (paginateSt auth seen cap pages w).2 = w := by
  intro pages
  induction pages with
  | nil => intro seen cap w; rfl
  | cons p rest ih =>
      intro seen cap w
      by_cases h0 : cap = some 0
      · simp [paginateSt, h0]
      · rcases hf : fetchWithRetry p with ⟨fo, a⟩
        cases fo with
        | success its hn =>
            cases hn with
            | true => simp [paginateSt, h0, fetchPageSt, hf, ih]
            | false => simp [paginateSt, h0, fetchPageSt, hf]
        | transient => simp [paginateSt, h0, fetchPageSt, hf]
        | reject => simp [paginateSt, h0, fetchPageSt, hf]

theorem paginateSt_run (auth : List Nat) :
    ∀ (pages : List PageBehavior) (seen : List Nat) (cap : Option Nat)
      (w : World), (paginateSt auth seen cap pages w).1 =
        paginate auth seen cap pages := by
  intro pages
  induction pages with
  | nil => intro seen cap w; rfl
  | cons p rest ih =>
      intro seen cap w
      by_cases h0 : cap = some 0
      · simp [paginateSt, paginate, h0]
      · rcases hf : fetchWithRetry p with ⟨fo, a⟩
        cases fo with
        | success its hn =>
            cases hn with
            | true => simp [paginateSt, paginate, h0, fetchPageSt, hf, ih]
            | false => simp [paginateSt, paginate, h0, fetchPageSt, hf]
        | transient => simp [paginateSt, paginate, h0, fetchPageSt, hf]
        | reject => simp [paginateSt, paginate, h0, fetchPageSt, hf]

theorem searchRunSt_frame (w : World) (q : SearchQuery) :
    (searchRunSt w q).2 = w := by
  rcases hv : validateQuery w.catalog q with _ | e
  case some => simp [searchRunSt, hv]
  by_cases hcap : q.maxItems = some 0
  · simp [searchRunSt, hv, hcap]
  match hp : w.catalog.pages with
  | [] => simp [searchRunSt, hv, hcap, hp]
  | p :: rest =>
      rcases hf : fetchFirst p with ⟨fo, a⟩
      cases fo with
      | success its hn =>
          cases hn with
          | true =>
              simp [searchRunSt, hv, hcap, hp, fetchPageSt, hf,
                paginateSt_frame]
          | false => simp [searchRunSt, hv, hcap, hp, fetchPageSt, hf]
      | transient => simp [searchRunSt, hv, hcap, hp, fetchPageSt, hf]
      | reject => simp [searchRunSt, hv, hcap, hp, fetchPageSt, hf]

theorem searchRunSt_run (w : World) (q : SearchQuery) :
    (searchRunSt w q).1 = searchRun w.catalog q := by
  rcases hv : validateQuery w.catalog q with _ | e
  case some => simp [searchRunSt, searchRun, hv]
  by_cases hcap : q.maxItems = some 0
  · simp [searchRunSt, searchRun, hv, hcap]
  match hp : w.catalog.pages with
  | [] => simp [searchRunSt, searchRun, hv, hcap, hp]
  | p :: rest =>
      rcases hf : fetchFirst p with ⟨fo, a⟩
      cases fo with
      | success its hn =>
          cases hn with
          | true =>
              simp [searchRunSt, searchRun, hv, hcap, hp, fetchPageSt, hf,
                paginateSt_run]
          | false =>
              simp [searchRunSt, searchRun, hv, hcap, hp, fetchPageSt, hf]
      | transient => simp [searchRunSt, searchRun, hv, hcap, hp, fetchPageSt, hf]
      | reject => simp [searchRunSt, searchRun, hv, hcap, hp, fetchPageSt, hf]

theorem splitOnColon_userpass (u p : List Nat) (hu : u.contains 58 = false) :
    splitOnColon (userpass u p) = (u, p) := by
  induction u with
  | nil => simp [userpass, splitOnColon]
  | cons c u' ih =>
      simp only [List.contains_cons, Bool.or_eq_false_iff, beq_eq_false_iff_ne,
        ne_eq] at hu
      have hc : ¬c = 58 := fun hh => hu.1 hh.symm
      simp only [userpass, List.cons_append, splitOnColon, if_neg hc]
      have hrec := ih hu.2
      simp only [userpass] at hrec
      simp [hrec]

theorem headOk_of_allOk {pages : List PageBehavior} (h : allOk pages = true)
    (hne : pages ≠ []) : headOk pages = true := by
  match pages, hne, h with
  | p :: rest, _, h =>
      cases p with
      | ok its hn => rfl
      | flaky f its hn => simp [allOk] at h
      | down => simp [allOk] at h
      | rejected => simp [allOk] at h

/-! ## Claim theorems -/

/-- C1: for every valid query with a positive cap `n` against a catalog whose
pages all answer successfully, the search returns exactly the first `n` items
of the deduplicated server-order stream; the length is at most `n`, and is
exactly `n` whenever at least `n` distinct matches exist; the sequence
terminates normally; and once the first `k` pages already hold `n` distinct
items no page beyond them is fetched. -/
theorem search_cap_truncation (cat : Catalog) (q : SearchQuery) (n : Nat)
    (hv : validateQuery cat q = none) (hcap : q.maxItems = some n)
    (hn : 0 < n) (hok : allOk cat.pages = true) :
    ∃ r, (searchRun cat q).result = .ok r
    ∧ r.items = (dedupAux [] (serverStream cat.pages)).1.take n
    ∧ r.terminal = none
    ∧ r.items.length ≤ n
    ∧ (n ≤ (dedupAux [] (serverStream cat.pages)).1.length →
        r.items.length = n)
    ∧ ∀ k, n ≤ (dedupAux [] (serverStream (cat.pages.take k))).1.length →
        (searchRun cat q).fetchCount ≤ k := by
  have hcap0 : ¬q.maxItems = some 0 := by rw [hcap]; simp; omega
  by_cases hps : cat.pages = []
  · refine ⟨⟨[], none⟩, ?_, ?_, rfl, by simp, ?_, ?_⟩
    · simp [searchRun, hv, hcap0, hps]
    · simp [hps, serverStream, dedupAux]
    · intro hlen
      rw [hps] at hlen
      simp [serverStream, dedupAux] at hlen
      omega
    · intro k hlen
      rw [hps] at hlen
      simp [serverStream, dedupAux] at hlen
      omega
  · have hhead := headOk_of_allOk hok hps
    have hsr := searchRun_eq_paginate cat q hv hcap0 hhead
    rw [hcap] at hsr
    obtain ⟨h1, h2⟩ := paginate_cap cat.authHeader cat.pages [] n hok
    refine ⟨⟨(paginate cat.authHeader [] (some n) cat.pages).items,
            (paginate cat.authHeader [] (some n) cat.pages).terminal⟩,
      ?_, h1, h2, ?_, ?_, ?_⟩
    · rw [hsr]
    · show (paginate cat.authHeader [] (some n) cat.pages).items.length ≤ n
      rw [h1, List.length_take]
      exact min_le_left _ _
    · intro hlen
      show (paginate cat.authHeader [] (some n) cat.pages).items.length = n
      rw [h1, List.length_take]
      omega
    · intro k hlen
      rw [hsr]
      exact paginate_fetches cat.authHeader cat.pages [] n k hok hlen

/-- C1 witness: against the two-page stub with a cap of 3, the search returns
the first three items in server order and stops after the first page. -/
theorem search_cap_truncation_witness :
    (searchRun stubCat2 capQuery3).result =
      .ok ⟨[⟨1, 99⟩, ⟨2, 98⟩, ⟨3, 97⟩], none⟩
    ∧ (searchRun stubCat2 capQuery3).fetchCount ≤ 1 := by
  obtain ⟨r, h1, h2, h3, h4, h5, h6⟩ :=
    search_cap_truncation stubCat2 capQuery3 3 (by decide) (by decide)
      (by decide) (by decide)
  constructor
  · rw [h1]
    have hr : r = ⟨[⟨1, 99⟩, ⟨2, 98⟩, ⟨3, 97⟩], none⟩ := by
      cases r
      simp only at h2 h3
      subst h3
      rw [h2]
      decide
    rw [hr]
  · exact h6 1 (by decide)

/-- C2: for every valid query with no cap against a catalog whose pages all
answer successfully, the search follows continuation flags through every page
and returns the whole deduplicated server stream as one normally terminated
sequence. -/
theorem search_follows_continuation (cat : Catalog) (q : SearchQuery)
    (hv : validateQuery cat q = none) (hnone : q.maxItems = none)
    (hok : allOk cat.pages = true) :
    (searchRun cat q).result =
      .ok ⟨(dedupAux [] (serverStream cat.pages)).1, none⟩ := by
  have hcap0 : ¬q.maxItems = some 0 := by rw [hnone]; simp
  by_cases hps : cat.pages = []
  · simp [searchRun, hv, hcap0, hps, serverStream, dedupAux]
  · have hhead := headOk_of_allOk hok hps
    have hsr := searchRun_eq_paginate cat q hv hcap0 hhead
    rw [hnone] at hsr
    obtain ⟨h1, h2⟩ := paginate_nocap cat.authHeader cat.pages [] hok
    rw [hsr]
    simp [h1, h2]

/-- C2 witness: the stub serving 2 pages of 5 items with continuation flags
and then a terminal empty page yields exactly 10 distinct items. -/
theorem search_follows_continuation_witness :
    (searchRun stubCat2 noCapQuery).result =
      .ok ⟨stubPage1 ++ stubPage2, none⟩
    ∧ (stubPage1 ++ stubPage2).length = 10
    ∧ ((stubPage1 ++ stubPage2).map Item.itemId).Nodup := by
  have h := search_follows_continuation stubCat2 noCapQuery (by decide) rfl
    (by decide)
  refine ⟨?_, by decide, by decide⟩
  rw [h]
  decide

/-- C3: no two items of a yielded result share an item id, even when the
same id appears on several fetched pages. -/
theorem search_result_ids_nodup (cat : Catalog) (q : SearchQuery)
    (r : SearchResult) (hres : (searchRun cat q).result = .ok r) :
    (r.items.map Item.itemId).Nodup :=
  searchRun_nodup cat q r hres

/-- C3 witness: the catalog whose pages overlap on item id 2 still yields a
duplicate-free result. -/
theorem search_result_ids_nodup_witness :
    (((⟨[⟨1, 99⟩, ⟨2, 98⟩, ⟨3, 97⟩], none⟩ : SearchResult)).items.map
      Item.itemId).Nodup :=
  search_result_ids_nodup dupCat noCapQuery ⟨[⟨1, 99⟩, ⟨2, 98⟩, ⟨3, 97⟩], none⟩
    (by decide)

/-- C4: a query whose time interval has start after end fails with
`InvalidTimeRange` and performs zero page fetches (here assuming its
collection keys and geometry are otherwise valid, since earlier caller-input
checks would fire first). -/
theorem search_invalid_time_range (cat : Catalog) (q : SearchQuery)
    (hcoll : (q.collections.all fun c => cat.validCollections.contains c) = true)
    (hgeom : validGeometry q.intersects = true)
    (ht : isoLe q.datetimeStart q.datetimeEnd = false) :
    searchRun cat q = ⟨.error .InvalidTimeRange, 0, []⟩ := by
  have hall : ∀ x ∈ q.collections, x ∈ cat.validCollections := by
    simpa using hcoll
  have hne : ¬∃ x, x ∈ q.collections ∧ x ∉ cat.validCollections := by
    rintro ⟨x, hx1, hx2⟩
    exact hx2 (hall x hx1)
  simp [searchRun, validateQuery, hne, hgeom, ht]

/-- C4 witness: the notebook query with its interval reversed fails with
`InvalidTimeRange` before any network call. -/
theorem search_invalid_time_range_witness :
    searchRun stubCat2 badTimeQuery = ⟨.error .InvalidTimeRange, 0, []⟩ :=
  search_invalid_time_range stubCat2 badTimeQuery (by decide) (by decide)
    (by decide)

/-- C5: when a page after the first answers 5xx on every retry attempt, the
search yields everything the earlier pages delivered and then terminates with
`PaginationFailure` instead of ending silently. -/
theorem search_pagination_failure_reported (cat : Catalog) (q : SearchQuery)
    (pre rest : List PageBehavior)
    (hv : validateQuery cat q = none) (hnone : q.maxItems = none)
    (hp : cat.pages = pre ++ .down :: rest) (hpre : pre ≠ [])
    (hok : allOkNext pre = true) :
    (searchRun cat q).result =
      .ok ⟨(dedupAux [] (serverStream cat.pages)).1,
           some .PaginationFailure⟩ := by
  have hcap0 : ¬q.maxItems = some 0 := by rw [hnone]; simp
  have hhead : headOk cat.pages = true := by
    rw [hp]
    match pre, hpre, hok with
    | p0 :: pre', _, hok =>
        cases p0 with
        | ok its hn =>
            cases hn with
            | true => rfl
            | false => simp [allOkNext] at hok
        | flaky f its hn => simp [allOkNext] at hok
        | down => simp [allOkNext] at hok
        | rejected => simp [allOkNext] at hok
  have hsr := searchRun_eq_paginate cat q hv hcap0 hhead
  rw [hnone] at hsr
  obtain ⟨h1, h2⟩ := paginate_down cat.authHeader rest pre [] hok
  rw [hsr, hp]
  simp [h1, h2]

/-- C5 witness: with the first page delivering five items and the second page
down on all retries, the caller receives those five items and then
`PaginationFailure`. -/
theorem search_pagination_failure_reported_witness :
    (searchRun failCat noCapQuery).result =
      .ok ⟨stubPage1, some .PaginationFailure⟩ := by
  have h := search_pagination_failure_reported failCat noCapQuery
    [.ok stubPage1 true] [] (by decide) rfl rfl (by decide) (by decide)
  rw [h]
  decide

/-- C6: the yielded sequence is a sublist of the server-order stream (the
client never reorders), so whenever the catalog's native order has
non-increasing acquisition times, so does the result. -/
theorem search_preserves_server_order (cat : Catalog) (q : SearchQuery)
    (r : SearchResult) (hok : allOk cat.pages = true)
    (hres : (searchRun cat q).result = .ok r) :
    r.items.Sublist (serverStream cat.pages)
    ∧ (List.Pairwise (fun a b => b.acqTime ≤ a.acqTime)
        (serverStream cat.pages) →
       List.Pairwise (fun a b => b.acqTime ≤ a.acqTime) r.items) := by
  have hsub : r.items.Sublist (serverStream cat.pages) := by
    rcases hv : validateQuery cat q with _ | e
    case some => simp [searchRun, hv] at hres
    by_cases hcap : q.maxItems = some 0
    · simp [searchRun, hv, hcap] at hres
      rw [← hres]
      exact List.nil_sublist _
    by_cases hps : cat.pages = []
    · simp [searchRun, hv, hcap, hps] at hres
      rw [← hres]
      exact List.nil_sublist _
    · have hhead := headOk_of_allOk hok hps
      have hsr := searchRun_eq_paginate cat q hv hcap hhead
      rw [hsr] at hres
      simp only [SearchReply.ok.injEq] at hres
      rw [← hres]
      exact paginate_sublist cat.authHeader cat.pages [] q.maxItems hok
  exact ⟨hsub, fun hs => List.Pairwise.sublist hsub hs⟩

/-- C6 witness: against the stub whose ten items arrive with strictly
decreasing acquisition times, the result's acquisition times are
non-increasing. -/
theorem search_preserves_server_order_witness :
    List.Pairwise (fun a b => b.acqTime ≤ a.acqTime)
      ((⟨stubPage1 ++ stubPage2, none⟩ : SearchResult)).items :=
  (search_preserves_server_order stubCat2 noCapQuery
      ⟨stubPage1 ++ stubPage2, none⟩ (by decide) (by decide)).2 (by decide)

/-- C7: the Authorization header is the string `Basic ` followed by the
base64 encoding of `username:password`, and that same header is attached to
every page request of every search. -/
theorem search_attaches_basic_auth (u pw : List Nat) (cat : Catalog)
    (q : SearchQuery) (hauth : cat.authHeader = headersAuthorization u pw) :
    headersAuthorization u pw = basicBytes ++ b64encode (userpass u pw)
    ∧ ∀ h ∈ (searchRun cat q).requests, h = headersAuthorization u pw := by
  refine ⟨rfl, fun h hh => ?_⟩
  rw [← hauth]
  exact searchRun_requests cat q h hh

/-- C7 witness: the stub catalog authenticated as `user:pass` attaches that
exact header to each of its three page requests. -/
theorem search_attaches_basic_auth_witness :
    headersAuthorization userBytes passBytes =
      basicBytes ++ b64encode (userpass userBytes passBytes)
    ∧ ∀ h ∈ (searchRun stubCat2 noCapQuery).requests,
        h = headersAuthorization userBytes passBytes :=
  search_attaches_basic_auth userBytes passBytes stubCat2 noCapQuery rfl

/-- C8: a search leaves the world — catalog state and local store — exactly
as it found it, agrees with the pure search function, and every item it
returns is served verbatim from the catalog's pages. -/
theorem search_mutates_nothing (w : World) (q : SearchQuery) :
    (searchRunSt w q).2 = w
    ∧ (searchRunSt w q).1 = searchRun w.catalog q
    ∧ ∀ r, (searchRunSt w q).1.result = .ok r →
        ∀ it ∈ r.items, it ∈ catalogItems w.catalog := by
  refine ⟨searchRunSt_frame w q, searchRunSt_run w q, fun r hr it hit => ?_⟩
  rw [searchRunSt_run w q] at hr
  exact searchRun_mem w.catalog q r hr it hit

/-- C8 witness: running the no-cap search in the stub world changes nothing
and only returns items the catalog serves. -/
theorem search_mutates_nothing_witness :
    (searchRunSt stubWorld noCapQuery).2 = stubWorld
    ∧ ∀ it ∈ (⟨stubPage1 ++ stubPage2, none⟩ : SearchResult).items,
        it ∈ catalogItems stubCat2 := by
  obtain ⟨h1, h2, h3⟩ := search_mutates_nothing stubWorld noCapQuery
  refine ⟨h1, fun it hit => h3 ⟨stubPage1 ++ stubPage2, none⟩ ?_ it hit⟩
  rw [h2]
  decide

/-- C9: the three notebook searches (L1A, L1B, L2 sections) pass pairwise
identical arguments, so against any one catalog they produce identical
outcomes. -/
theorem notebook_searches_identical :
    (l1aSearchQuery = l1bSearchQuery ∧ l1bSearchQuery = l2SearchQuery)
    ∧ ∀ cat : Catalog,
        searchRun cat l1aSearchQuery = searchRun cat l1bSearchQuery
        ∧ searchRun cat l1bSearchQuery = searchRun cat l2SearchQuery :=
  ⟨⟨rfl, rfl⟩, fun _ => ⟨rfl, rfl⟩⟩

/-- C10: decoding the part of the Authorization header after `Basic `
recovers exactly `username:password`; splitting that string at a colon
recovers the pair whenever the username holds no colon, and is ambiguous
whenever it does. -/
theorem auth_header_decodes (u pw : List Nat)
    (hu : ∀ x ∈ u, x < 256) (hpw : ∀ x ∈ pw, x < 256) :
    b64decode ((headersAuthorization u pw).drop basicBytes.length) =
      userpass u pw
    ∧ (u.contains 58 = false → splitOnColon (userpass u pw) = (u, pw))
    ∧ (u.contains 58 = true →
        ∃ u2 p2, (u2, p2) ≠ (u, pw) ∧ userpass u2 p2 = userpass u pw) := by
  refine ⟨?_, fun hc => splitOnColon_userpass u pw hc, fun hc => ?_⟩
  · have hdrop : (headersAuthorization u pw).drop basicBytes.length =
        b64 u pw := by
      simp [headersAuthorization, List.drop_left]
    rw [hdrop]
    refine b64decode_b64encode (userpass u pw) ?_
    intro x hx
    simp [userpass] at hx
    rcases hx with hx | hx | hx
    · exact hu x hx
    · omega
    · exact hpw x hx
  · have hmem : (58 : Nat) ∈ u := by simpa using hc
    obtain ⟨s, t, rfl⟩ := List.append_of_mem hmem
    refine ⟨s, t ++ 58 :: pw, ?_, by simp [userpass]⟩
    intro heq
    have hfst : s = s ++ 58 :: t := congrArg Prod.fst heq
    have hlen := congrArg List.length hfst
    simp only [List.length_append, List.length_cons] at hlen
    omega

/-- C10 witness: for the sample credentials, decoding the header suffix
recovers `user:pass` and splitting at the colon recovers the pair. -/
theorem auth_header_decodes_witness :
    b64decode ((headersAuthorization userBytes passBytes).drop
      basicBytes.length) = userpass userBytes passBytes
    ∧ splitOnColon (userpass userBytes passBytes) = (userBytes, passBytes) := by
  obtain ⟨h1, h2, h3⟩ := auth_header_decodes userBytes passBytes (by decide)
    (by decide)
  exact ⟨h1, h2 (by decide)⟩

end VZ
